import Mathlib

/-!
Shallow embedding of the release-version scripts of NightScoutMongoBackup.

The source is a semantic-release plugin (JavaScript) that
  * classifies commit messages into bot / api commits (`analyzeCommits`),
  * computes the next semantic version from a current version string and a
    release type (`calculateNextVersion`),
  * reads and rewrites `__version__ = "X.Y.Z"` constants in Python files
    (`readPythonVersion`, `updatePythonVersion`) and the `version = "X.Y.Z"`
    field of `pyproject.toml` (`updatePyprojectVersion`),
  * orchestrates the whole bump in `prepare`, treating a failure of the
    wrapper-manifest sync step as a non-fatal warning.

Strings are modelled at the `List Char` level (Lean 4.14 strings are lists of
characters, matching JavaScript's sequence-of-code-points view for the ASCII
data handled here).  File I/O is modelled by an association list from path to
content; a read of a missing path models a thrown-and-caught `readFileSync`
error.  Subprocess results (the wrapper sync script) are modelled by a
boolean outcome supplied by the environment.
-/

/-! ### JavaScript numbers, as produced by `split('.').map(Number)`

The plugin only ever feeds dot-separated segments of a version string to
`Number` and then renders `n + 1` (or `n`) with a template literal.  We model
the values that can arise: a natural number, `NaN` (from a non-numeric
segment), and `undefined` (from destructuring a short array).  `jsNumber`
models `Number` on whitespace-free decimal segments: the empty string maps to
`0` and a non-digit segment maps to `NaN`, exactly as in JavaScript; other
JavaScript numeric formats (signs, hex, exponents, surrounding whitespace)
never reach this code path and are conservatively mapped to `NaN`. -/

inductive JsNum where
  | num : Nat → JsNum
  | nan : JsNum
  | undef : JsNum
deriving DecidableEq, Repr

/-- Decimal digit character for a value below ten. -/
def digitChar (d : Nat) : Char := Char.ofNat (48 + d)

/-- Numeric value of a decimal digit character. -/
def digitVal (c : Char) : Option Nat :=
  if c.isDigit then some (c.toNat - 48) else none

/-- Fuel-indexed decimal rendering; `fuel > n` guarantees full rendering. -/
def renderNatAux : Nat → Nat → List Char → List Char
  | 0, _, acc => acc
  | fuel + 1, n, acc =>
    if n < 10 then digitChar n :: acc
    else renderNatAux fuel (n / 10) (digitChar (n % 10) :: acc)

/-- Decimal rendering of a natural number, as a JavaScript template literal
renders a nonnegative integer. -/
def renderNat (n : Nat) : List Char := renderNatAux (n + 1) n []

/-- Parse a list of decimal digit characters, accumulator style. -/
def parseDigitsAux : Nat → List Char → Option Nat
  | acc, [] => some acc
  | acc, c :: cs =>
    match digitVal c with
    | some d => parseDigitsAux (acc * 10 + d) cs
    | none => none

/-- Model of JavaScript `Number` on one dot-separated segment. -/
def jsNumber (cs : List Char) : JsNum :=
  match cs with
  | [] => .num 0
  | _ =>
    match parseDigitsAux 0 cs with
    | some n => .num n
    | none => .nan

/-- Model of JavaScript `x + 1` for the destructured segment values. -/
def JsNum.addOne : JsNum → JsNum
  | .num n => .num (n + 1)
  | _ => .nan

/-- Model of JavaScript template-literal rendering of a segment value. -/
def JsNum.render : JsNum → List Char
  | .num n => renderNat n
  | .nan => "NaN".data
  | .undef => "undefined".data

/-- Model of JavaScript `String.prototype.split('.')`. -/
def splitDot : List Char → List (List Char)
  | [] => [[]]
  | c :: rest =>
    if c = '.' then [] :: splitDot rest
    else
      match splitDot rest with
      | [] => [[c]]
      | g :: gs => (c :: g) :: gs

/-- Embedding of `calculateNextVersion` from the plugin:
`const [major, minor, patch] = currentVersion.split('.').map(Number)` followed
by a `switch` on the release type whose default branch returns the input
unchanged. -/
def calculateNextVersion (currentVersion releaseType : String) : String :=
  let parts := (splitDot currentVersion.data).map jsNumber
  let major := parts.getD 0 .undef
  let minor := parts.getD 1 .undef
  let patch := parts.getD 2 .undef
  if releaseType = "major" then
    ⟨major.addOne.render ++ '.' :: '0' :: '.' :: ['0']⟩
  else if releaseType = "minor" then
    ⟨major.render ++ '.' :: (minor.addOne.render ++ '.' :: ['0'])⟩
  else if releaseType = "patch" then
    ⟨major.render ++ '.' :: (minor.render ++ '.' :: patch.addOne.render)⟩
  else currentVersion

/-- Canonical textual form of a semantic version `(major, minor, patch)`. -/
def canonicalVersion (major minor patch : Nat) : String :=
  ⟨renderNat major ++ '.' :: (renderNat minor ++ '.' :: renderNat patch)⟩

/-! ### Commit classification (`analyzeCommits`) -/

/-- Commit record; only the message is consulted by the plugin. -/
structure Commit where
  message : String
deriving DecidableEq, Repr

/-- Decision record returned by `analyzeCommits`. -/
structure ComponentBumpDecision where
  bumpBot : Bool
  bumpApi : Bool
deriving DecidableEq, Repr

/-- Alternatives of the anchored case-insensitive bot regex
`/^(bot|feat\(bot\)|fix\(bot\)|perf\(bot\)|refactor\(bot\))/i`. -/
def botPats : List String :=
  ["bot", "feat(bot)", "fix(bot)", "perf(bot)", "refactor(bot)"]

/-- Alternatives of the anchored case-insensitive api regex. -/
def apiPats : List String :=
  ["api", "feat(api)", "fix(api)", "perf(api)", "refactor(api)"]

/-- Boolean prefix test on character lists. -/
def isPrefixList : List Char → List Char → Bool
  | [], _ => true
  | _ :: _, [] => false
  | p :: ps, c :: cs => p == c && isPrefixList ps cs

/-- Model of `message.match(/^(alt1|...)/i)` being non-null: some alternative
is a case-insensitive prefix of the message (the alternatives are ASCII, so
case folding by `Char.toLower` matches the regex `i` flag). -/
def matchesAny (pats : List String) (msg : String) : Bool :=
  pats.any fun p => isPrefixList p.data (msg.data.map Char.toLower)

/-- Embedding of `analyzeCommits` from the plugin. -/
def analyzeCommits (commits : List Commit) : ComponentBumpDecision :=
  let hasBotCommits := commits.any fun c => matchesAny botPats c.message
  let hasApiCommits := commits.any fun c => matchesAny apiPats c.message
  { bumpBot := hasBotCommits || (!hasBotCommits && !hasApiCommits)
    bumpApi := hasApiCommits || (!hasBotCommits && !hasApiCommits) }

/-! ### The version-constant matcher

Embedding of the regex `__version__\s*=\s*["']([^"']+)["']` used by
`readPythonVersion` and `updatePythonVersion`, and of the line-anchored
`^version\s*=\s*["'][^"']+["']` (multiline flag) used by
`updatePyprojectVersion`.  The pattern has no alternation after the literal
and `\s*` / `[^"']+` are followed by characters outside their own classes, so
greedy matching with backtracking coincides with `dropWhile` / `takeWhile`;
the engine's leftmost-match rule is the position scan of `findVersion` and
`replaceVersion`. -/

/-- Whitespace class of the regex `\s` (the characters that occur here). -/
def jsWS (c : Char) : Bool := c.isWhitespace

/-- Quote class `["']` of the regex. -/
def isQuote (c : Char) : Bool := c == '"' || c == '\''

/-- Complement class `[^"']` of the regex. -/
def notQuote (c : Char) : Bool := !(isQuote c)

/-- Strip an exact literal from the front of the input. -/
def dropLit : List Char → List Char → Option (List Char)
  | [], cs => some cs
  | _ :: _, [] => none
  | l :: ls, c :: cs => if c == l then dropLit ls cs else none

/-- Literal of the Python-constant regex. -/
def verLit : List Char := "__version__".data

/-- Literal of the pyproject-field regex. -/
def verLitP : List Char := "version".data

/-- Continuation of the matcher after the opening quote: `([^"']+)["']`.
The capture is the maximal run of non-quote characters; it must be non-empty
and be followed by a closing quote (the head of the `dropWhile` residue is a
quote whenever the residue is non-empty).  Returns the capture and the input
after the whole match. -/
def afterQuote (r5 : List Char) : Option (List Char × List Char) :=
  if (r5.takeWhile notQuote).isEmpty then none
  else
    match r5.dropWhile notQuote with
    | [] => none
    | _ :: r7 => some (r5.takeWhile notQuote, r7)

/-- Continuation of the matcher after the `=`: `\s*["']([^"']+)["']`. -/
def afterEq (r3 : List Char) : Option (List Char × List Char) :=
  match r3.dropWhile jsWS with
  | [] => none
  | q :: r5 => if isQuote q then afterQuote r5 else none

/-- Continuation of the matcher after the literal: `\s*=\s*["']([^"']+)["']`. -/
def afterLit (r1 : List Char) : Option (List Char × List Char) :=
  match r1.dropWhile jsWS with
  | [] => none
  | c :: r3 => if c == '=' then afterEq r3 else none

/-- Try the full Python-constant pattern at the current position. -/
def matchVersionAt (cs : List Char) : Option (List Char × List Char) :=
  (dropLit verLit cs).bind afterLit

/-- Try the pyproject pattern (`version` literal) at the current position. -/
def matchPyprojAt (cs : List Char) : Option (List Char × List Char) :=
  (dropLit verLitP cs).bind afterLit

/-- Leftmost match of the Python-constant pattern: the capture group, as
`content.match(regex)[1]` returns it. -/
def findVersion : List Char → Option (List Char)
  | [] => none
  | c :: cs =>
    match matchVersionAt (c :: cs) with
    | some (cap, _) => some cap
    | none => findVersion cs

/-- Replace the leftmost match of the Python-constant pattern, as
`content.replace(regex, repl)` does for a non-global regex; content with no
match is returned unchanged. -/
def replaceVersion (repl : List Char) : List Char → List Char
  | [] => []
  | c :: cs =>
    match matchVersionAt (c :: cs) with
    | some (_, rest) => repl ++ rest
    | none => c :: replaceVersion repl cs

/-- Replace the leftmost line-anchored match of the pyproject pattern (the
`m` flag makes `^` match at the start and after each newline). -/
def replacePyprojAux (repl : List Char) : Bool → List Char → List Char
  | _, [] => []
  | atStart, c :: cs =>
    if atStart then
      match matchPyprojAt (c :: cs) with
      | some (_, rest) => repl ++ rest
      | none => c :: replacePyprojAux repl (c == '\n') cs
    else c :: replacePyprojAux repl (c == '\n') cs

/-- Replacement text `__version__ = "${newVersion}"` of `updatePythonVersion`
(the version strings written here contain no `$`, so JavaScript replacement
patterns do not arise). -/
def pyRepl (v : String) : List Char := "__version__ = \"".data ++ v.data ++ ['"']

/-- Replacement text `version = "${newVersion}"` of `updatePyprojectVersion`. -/
def pyprojRepl (v : String) : List Char := "version = \"".data ++ v.data ++ ['"']

/-- Content-level embedding of `readPythonVersion`'s successful read: the
capture of the first regex match, or `null`. -/
def readPythonVersionContent (content : String) : Option String :=
  (findVersion content.data).map fun cap => ⟨cap⟩

/-- Content-level embedding of the `content.replace` step of
`updatePythonVersion`. -/
def updatePythonVersionContent (content newVersion : String) : String :=
  ⟨replaceVersion (pyRepl newVersion) content.data⟩

/-- Content-level embedding of the `content.replace` step of
`updatePyprojectVersion`. -/
def updatePyprojectVersionContent (content newVersion : String) : String :=
  ⟨replacePyprojAux (pyprojRepl newVersion) true content.data⟩

/-- Progress of the matcher tail `([^"']+)["']` when the scanned prefix `g`
is followed by a region that contains a quote preceded only by non-quote
characters (proof-side characterization; see `afterQuote_shape`). -/
def scanQuoteTail (g : List Char) : Bool :=
  g.all notQuote || !(g.takeWhile notQuote).isEmpty

/-- Progress of the matcher tail `\s*["']([^"']+)["']` on a prefix `g`
followed by a version-constant-shaped region. -/
def scanEqTail (g : List Char) : Bool :=
  match g.dropWhile jsWS with
  | [] => false
  | q :: g5 => if isQuote q then scanQuoteTail g5 else false

/-- Progress of the matcher tail `\s*=\s*["']([^"']+)["']` on a prefix `g`
followed by a version-constant-shaped region. -/
def scanLitTail (g : List Char) : Bool :=
  match g.dropWhile jsWS with
  | [] => false
  | c :: g3 => if c == '=' then scanEqTail g3 else false

/-- Shape of a full match of the version-constant regex: literal, optional
whitespace, `=`, optional whitespace, quote, non-empty quote-free capture,
closing quote.  Both the matched region of a content string and the
replacement text written by the updater have this shape. -/
def VShape (m : List Char) : Prop :=
  ∃ ws1 ws2 q1 cap q2,
    ws1.all jsWS = true ∧ ws2.all jsWS = true ∧
    isQuote q1 = true ∧ isQuote q2 = true ∧
    cap ≠ [] ∧ (∀ c ∈ cap, notQuote c = true) ∧
    m = verLit ++ ws1 ++ '=' :: (ws2 ++ q1 :: (cap ++ [q2]))

/-- Canonical-form test `\d+\.\d+\.\d+` for a version string. -/
def isCanonicalVersionString (v : String) : Bool :=
  match splitDot v.data with
  | [a, b, c] =>
    !a.isEmpty && a.all Char.isDigit && !b.isEmpty && b.all Char.isDigit &&
      !c.isEmpty && c.all Char.isDigit
  | _ => false

/-! ### File system model and the `prepare` orchestration -/

/-- File store: association list from path to content; first binding wins. -/
def FileSystem := List (String × String)

/-- Model of a successful `readFileSync`; `none` models the thrown error. -/
def readFs (fs : FileSystem) (path : String) : Option String :=
  (List.find? (fun e => e.1 == path) fs).map fun e => e.2

/-- Model of `writeFileSync`. -/
def writeFs (fs : FileSystem) (path content : String) : FileSystem :=
  (path, content) :: fs

/-- Model of `fs.existsSync`. -/
def existsFs (fs : FileSystem) (path : String) : Bool :=
  (readFs fs path).isSome

/-- Embedding of `readPythonVersion`: read the file (a failed read is caught
and yields `null`) and extract the first match's capture. -/
def readPythonVersionFs (fs : FileSystem) (path : String) : Option String :=
  match readFs fs path with
  | none => none
  | some content => readPythonVersionContent content

/-- Embedding of `updatePythonVersion`: read, replace, write back; `none`
models the caught I/O error that makes the function return `false`. -/
def updatePythonVersionFs (fs : FileSystem) (path newVersion : String) :
    Option FileSystem :=
  match readFs fs path with
  | none => none
  | some content =>
    some (writeFs fs path (updatePythonVersionContent content newVersion))

/-- Embedding of `updatePyprojectVersion`, analogous. -/
def updatePyprojectVersionFs (fs : FileSystem) (path newVersion : String) :
    Option FileSystem :=
  match readFs fs path with
  | none => none
  | some content =>
    some (writeFs fs path (updatePyprojectVersionContent content newVersion))

/-- Plugin configuration passed to `prepare`; `pyprojectFile` is optional. -/
structure PluginConfig where
  botVersionFile : String
  apiVersionFile : String
  pyprojectFile : Option String

/-- Value returned by `prepare`, together with the warning state of the
logger: `syncWarned` records that `logger.warn` fired for the sync step. -/
structure PrepareResult where
  botVersion : String
  apiVersion : String
  version : String
  syncWarned : Bool
deriving DecidableEq, Repr

/-- JavaScript truthiness test on the nullable read result: `null` and the
empty string are falsy. -/
def jsFalsyOpt : Option String → Bool
  | none => true
  | some s => s.isEmpty

/-- Bot-file part of `prepare`'s update phase: inside `if (bumpBot)`, update
the bot constant (throwing on failure) and then, when a pyproject path is
configured (truthy) and the file exists, update it too (throwing on failure).
Errors carry the file store as it stands when the exception is thrown. -/
def botStep (cfg : PluginConfig) (bumpBot : Bool) (v : String)
    (fs : FileSystem) : Except (String × FileSystem) FileSystem :=
  if bumpBot then
    match updatePythonVersionFs fs cfg.botVersionFile v with
    | none => .error ("Failed to update bot version in " ++ cfg.botVersionFile, fs)
    | some fs1 =>
      match cfg.pyprojectFile with
      | some pp =>
        if !pp.isEmpty && existsFs fs1 pp then
          match updatePyprojectVersionFs fs1 pp v with
          | none => .error ("Failed to update pyproject.toml", fs1)
          | some fs2 => .ok fs2
        else .ok fs1
      | none => .ok fs1
  else .ok fs

/-- Api-file part of `prepare`'s update phase, inside `if (bumpApi)`. -/
def apiStep (cfg : PluginConfig) (bumpApi : Bool) (v : String)
    (fs : FileSystem) : Except (String × FileSystem) FileSystem :=
  if bumpApi then
    match updatePythonVersionFs fs cfg.apiVersionFile v with
    | none => .error ("Failed to update API version in " ++ cfg.apiVersionFile, fs)
    | some fs2 => .ok fs2
  else .ok fs

/-- The read / classify / calculate / persist sequence of `prepare`, up to but
not including the wrapper sync step. -/
def prepareSteps (cfg : PluginConfig) (commits : List Commit)
    (releaseType : String) (fs : FileSystem) :
    Except (String × FileSystem) (String × String × FileSystem) :=
  let currentBotVersion := readPythonVersionFs fs cfg.botVersionFile
  let currentApiVersion := readPythonVersionFs fs cfg.apiVersionFile
  if jsFalsyOpt currentBotVersion || jsFalsyOpt currentApiVersion then
    .error ("Could not read current versions from Python files", fs)
  else
    let curBot := currentBotVersion.getD ""
    let curApi := currentApiVersion.getD ""
    let d := analyzeCommits commits
    let botVersion :=
      if d.bumpBot then calculateNextVersion curBot releaseType else curBot
    let apiVersion :=
      if d.bumpApi then calculateNextVersion curApi releaseType else curApi
    match botStep cfg d.bumpBot botVersion fs with
    | .error e => .error e
    | .ok fs1 =>
      match apiStep cfg d.bumpApi apiVersion fs1 with
      | .error e => .error e
      | .ok fs2 => .ok (botVersion, apiVersion, fs2)

/-- Embedding of `prepare`: run the update sequence, then the wrapper sync
(whose external success is the `syncOk` input); a sync failure only flips the
warning flag.  The returned record carries `version := botVersion`, the
primary version handed back to semantic-release. -/
def prepare (cfg : PluginConfig) (commits : List Commit) (releaseType : String)
    (syncOk : Bool) (fs : FileSystem) :
    Except (String × FileSystem) (PrepareResult × FileSystem) :=
  match prepareSteps cfg commits releaseType fs with
  | .error e => .error e
  | .ok (botVersion, apiVersion, fs1) =>
    .ok ({ botVersion := botVersion, apiVersion := apiVersion,
           version := botVersion, syncWarned := !syncOk }, fs1)

/-- Spec-side predicate of C3: the message, case-insensitively, starts with
`bot`, `feat(bot)`, `fix(bot)`, `perf(bot)` or `refactor(bot)`. -/
def isBotCommitMsg (msg : String) : Prop :=
  isPrefixList "bot".data (msg.data.map Char.toLower) = true ∨
  isPrefixList "feat(bot)".data (msg.data.map Char.toLower) = true ∨
  isPrefixList "fix(bot)".data (msg.data.map Char.toLower) = true ∨
  isPrefixList "perf(bot)".data (msg.data.map Char.toLower) = true ∨
  isPrefixList "refactor(bot)".data (msg.data.map Char.toLower) = true

/-- Spec-side predicate of C3 for api commits. -/
def isApiCommitMsg (msg : String) : Prop :=
  isPrefixList "api".data (msg.data.map Char.toLower) = true ∨
  isPrefixList "feat(api)".data (msg.data.map Char.toLower) = true ∨
  isPrefixList "fix(api)".data (msg.data.map Char.toLower) = true ∨
  isPrefixList "perf(api)".data (msg.data.map Char.toLower) = true ∨
  isPrefixList "refactor(api)".data (msg.data.map Char.toLower) = true

/-! ### Lemmas: decimal rendering and parsing round-trip -/

theorem renderNatAux_append : ∀ fuel n acc,
    renderNatAux fuel n acc = renderNatAux fuel n [] ++ acc := by
  intro fuel
  induction fuel with
  | zero => intro n acc; simp [renderNatAux]
  | succ fuel ih =>
    intro n acc
    by_cases h : n < 10
    · simp [renderNatAux, h]
    · simp only [renderNatAux, if_neg h]
      rw [ih (n / 10) (digitChar (n % 10) :: acc),
        ih (n / 10) [digitChar (n % 10)], List.append_assoc]
      rfl

theorem digitVal_digitChar (d : Nat) (h : d < 10) :
    digitVal (digitChar d) = some d := by
  interval_cases d <;> rfl

theorem digitChar_isDigit (d : Nat) (h : d < 10) :
    (digitChar d).isDigit = true := by
  interval_cases d <;> rfl

theorem renderNatAux_mem : ∀ fuel n acc, n < fuel →
    ∀ c ∈ renderNatAux fuel n acc, c ∈ acc ∨ c.isDigit = true := by
  intro fuel
  induction fuel with
  | zero => intro n acc h; omega
  | succ fuel ih =>
    intro n acc h c hc
    by_cases h10 : n < 10
    · simp only [renderNatAux, if_pos h10, List.mem_cons] at hc
      rcases hc with rfl | hc
      · exact Or.inr (digitChar_isDigit n h10)
      · exact Or.inl hc
    · simp only [renderNatAux, if_neg h10] at hc
      have hdiv : n / 10 < n := Nat.div_lt_self (by omega) (by omega)
      rcases ih (n / 10) (digitChar (n % 10) :: acc) (by omega) c hc with hmem | hd
      · rcases List.mem_cons.mp hmem with rfl | hmem
        · exact Or.inr (digitChar_isDigit _ (Nat.mod_lt _ (by omega)))
        · exact Or.inl hmem
      · exact Or.inr hd

theorem renderNat_digits (n : Nat) : ∀ c ∈ renderNat n, c.isDigit = true := by
  intro c hc
  rcases renderNatAux_mem (n + 1) n [] (by omega) c hc with h | h
  · exact absurd h (List.not_mem_nil c)
  · exact h

theorem renderNatAux_ne_nil : ∀ fuel n acc, 0 < fuel ∨ acc ≠ [] →
    renderNatAux fuel n acc ≠ [] := by
  intro fuel
  induction fuel with
  | zero =>
    intro n acc h
    simp only [renderNatAux]
    rcases h with h | h
    · omega
    · exact h
  | succ fuel ih =>
    intro n acc _
    by_cases h10 : n < 10
    · simp [renderNatAux, h10]
    · simp only [renderNatAux, if_neg h10]
      exact ih (n / 10) (digitChar (n % 10) :: acc) (Or.inr (by simp))

theorem renderNat_ne_nil (n : Nat) : renderNat n ≠ [] :=
  renderNatAux_ne_nil (n + 1) n [] (Or.inl (by omega))

theorem parseDigitsAux_append : ∀ (xs ys : List Char) (a : Nat),
    parseDigitsAux a (xs ++ ys) =
      match parseDigitsAux a xs with
      | some b => parseDigitsAux b ys
      | none => none := by
  intro xs
  induction xs with
  | nil => intro ys a; rfl
  | cons c cs ih =>
    intro ys a
    simp only [List.cons_append, parseDigitsAux]
    cases hdv : digitVal c with
    | some d => exact ih ys (a * 10 + d)
    | none => rfl

theorem parse_renderNatAux : ∀ fuel n a, n < fuel →
    parseDigitsAux a (renderNatAux fuel n []) =
      some (a * 10 ^ (renderNatAux fuel n []).length + n) := by
  intro fuel
  induction fuel with
  | zero => intro n a h; omega
  | succ fuel ih =>
    intro n a h
    by_cases h10 : n < 10
    · simp only [renderNatAux, if_pos h10, parseDigitsAux,
        digitVal_digitChar n h10, List.length_cons, List.length_nil]
      simp [pow_one]
    · have hdiv : n / 10 < n := Nat.div_lt_self (by omega) (by omega)
      simp only [renderNatAux, if_neg h10]
      rw [renderNatAux_append fuel (n / 10) [digitChar (n % 10)]]
      rw [parseDigitsAux_append]
      rw [ih (n / 10) a (by omega)]
      simp only [parseDigitsAux, digitVal_digitChar (n % 10) (Nat.mod_lt _ (by omega)),
        List.length_append, List.length_cons, List.length_nil]
      have hmod : 10 * (n / 10) + n % 10 = n := Nat.div_add_mod n 10
      have hpow : 10 ^ ((renderNatAux fuel (n / 10) []).length + 1) =
          10 ^ (renderNatAux fuel (n / 10) []).length * 10 := pow_succ 10 _
      congr 1
      rw [hpow]
      ring_nf
      omega

theorem parse_renderNat (n : Nat) : parseDigitsAux 0 (renderNat n) = some n := by
  rw [renderNat, parse_renderNatAux (n + 1) n 0 (by omega)]
  simp

theorem jsNumber_renderNat (n : Nat) : jsNumber (renderNat n) = .num n := by
  have hp := parse_renderNat n
  cases hr : renderNat n with
  | nil => exact absurd hr (renderNat_ne_nil n)
  | cons c cs =>
    rw [hr] at hp
    simp [jsNumber, hp]

/-! ### Lemmas: `splitDot` on dot-free segments -/

theorem splitDot_ne_nil : ∀ cs, splitDot cs ≠ [] := by
  intro cs
  cases cs with
  | nil => simp [splitDot]
  | cons c rest =>
    simp only [splitDot]
    by_cases h : c = '.'
    · simp [h]
    · simp only [if_neg h]
      cases splitDot rest <;> simp

theorem splitDot_dotfree : ∀ cs, (∀ c ∈ cs, c ≠ '.') → splitDot cs = [cs] := by
  intro cs
  induction cs with
  | nil => intro _; rfl
  | cons c rest ih =>
    intro h
    have hc : c ≠ '.' := h c (List.mem_cons_self c rest)
    have hrest := ih fun x hx => h x (List.mem_cons_of_mem c hx)
    simp [splitDot, hc, hrest]

theorem splitDot_append : ∀ a r, (∀ c ∈ a, c ≠ '.') →
    splitDot (a ++ '.' :: r) = a :: splitDot r := by
  intro a
  induction a with
  | nil => intro r _; simp [splitDot]
  | cons c a' ih =>
    intro r h
    have hc : c ≠ '.' := h c (List.mem_cons_self c a')
    have ha' := ih r fun x hx => h x (List.mem_cons_of_mem c hx)
    simp [splitDot, hc, ha']

theorem renderNat_not_dot (n : Nat) : ∀ c ∈ renderNat n, c ≠ '.' := by
  intro c hc heq
  have hd := renderNat_digits n c hc
  rw [heq] at hd
  exact absurd hd (by decide)

/-! ### Claim theorems: version calculation and commit classification -/

/-- C1: for every valid semantic version `(major, minor, patch)` in canonical
textual form and every release type among `major`, `minor`, `patch`,
`calculateNextVersion` increments the named component and zeroes all
lower-order components. -/
theorem calculateNextVersion_bump_spec (M m p : Nat) :
    calculateNextVersion (canonicalVersion M m p) "major" =
      canonicalVersion (M + 1) 0 0 ∧
    calculateNextVersion (canonicalVersion M m p) "minor" =
      canonicalVersion M (m + 1) 0 ∧
    calculateNextVersion (canonicalVersion M m p) "patch" =
      canonicalVersion M m (p + 1) := by
  have hparts : (splitDot (canonicalVersion M m p).data).map jsNumber =
      [JsNum.num M, JsNum.num m, JsNum.num p] := by
    show (splitDot
        (renderNat M ++ '.' :: (renderNat m ++ '.' :: renderNat p))).map jsNumber = _
    rw [splitDot_append _ _ (renderNat_not_dot M),
      splitDot_append _ _ (renderNat_not_dot m),
      splitDot_dotfree _ (renderNat_not_dot p)]
    simp [jsNumber_renderNat]
  refine ⟨?_, ?_, ?_⟩
  · show (⟨(((splitDot (canonicalVersion M m p).data).map jsNumber).getD 0
        .undef).addOne.render ++ '.' :: '0' :: '.' :: ['0']⟩ : String) = _
    rw [hparts]
    rfl
  · show (⟨(((splitDot (canonicalVersion M m p).data).map jsNumber).getD 0
        .undef).render ++ '.' ::
          ((((splitDot (canonicalVersion M m p).data).map jsNumber).getD 1
            .undef).addOne.render ++ '.' :: ['0'])⟩ : String) = _
    rw [hparts]
    rfl
  · show (⟨(((splitDot (canonicalVersion M m p).data).map jsNumber).getD 0
        .undef).render ++ '.' ::
          ((((splitDot (canonicalVersion M m p).data).map jsNumber).getD 1
            .undef).render ++ '.' ::
              (((splitDot (canonicalVersion M m p).data).map jsNumber).getD 2
                .undef).addOne.render)⟩ : String) = _
    rw [hparts]
    rfl

/-- C2: at the failing input, the code's `switch` default branch silently
returns the current version unchanged instead of failing with an
`InvalidReleaseType` error. -/
theorem calculateNextVersion_unknown_type_noop :
    calculateNextVersion "1.2.3" "rc" = "1.2.3" := rfl

theorem matchesAny_botPats (msg : String) :
    matchesAny botPats msg = true ↔ isBotCommitMsg msg := by
  simp only [matchesAny, botPats, List.any_cons, List.any_nil,
    Bool.or_eq_true, isBotCommitMsg]
  tauto

theorem matchesAny_apiPats (msg : String) :
    matchesAny apiPats msg = true ↔ isApiCommitMsg msg := by
  simp only [matchesAny, apiPats, List.any_cons, List.any_nil,
    Bool.or_eq_true, isApiCommitMsg]
  tauto

/-- C3: `bumpBot` is true exactly when some commit message case-insensitively
starts with one of the bot forms, or when no commit matches either the bot or
the api pattern; symmetrically for `bumpApi`. -/
theorem analyzeCommits_flag_spec (cs : List Commit) :
    ((analyzeCommits cs).bumpBot = true ↔
      ((∃ c ∈ cs, isBotCommitMsg c.message) ∨
        ¬((∃ c ∈ cs, isBotCommitMsg c.message) ∨
          (∃ c ∈ cs, isApiCommitMsg c.message)))) ∧
    ((analyzeCommits cs).bumpApi = true ↔
      ((∃ c ∈ cs, isApiCommitMsg c.message) ∨
        ¬((∃ c ∈ cs, isBotCommitMsg c.message) ∨
          (∃ c ∈ cs, isApiCommitMsg c.message)))) := by
  have hbot : (cs.any fun c => matchesAny botPats c.message) = true ↔
      ∃ c ∈ cs, isBotCommitMsg c.message := by
    simp only [List.any_eq_true, matchesAny_botPats]
  have hapi : (cs.any fun c => matchesAny apiPats c.message) = true ↔
      ∃ c ∈ cs, isApiCommitMsg c.message := by
    simp only [List.any_eq_true, matchesAny_apiPats]
  simp only [analyzeCommits, Bool.or_eq_true, Bool.and_eq_true,
    Bool.not_eq_true']
  rw [← hbot, ← hapi]
  constructor <;> constructor <;> intro h
  · rcases h with h | ⟨h1, h2⟩
    · exact Or.inl h
    · exact Or.inr (by simp [h1, h2])
  · rcases h with h | h
    · exact Or.inl h
    · right
      constructor <;> [skip; skip] <;>
        simp only [Bool.eq_false_iff, Ne, ← Bool.not_eq_true] <;> tauto
  · rcases h with h | ⟨h1, h2⟩
    · exact Or.inl h
    · exact Or.inr (by simp [h1, h2])
  · rcases h with h | h
    · exact Or.inl h
    · right
      constructor <;> [skip; skip] <;>
        simp only [Bool.eq_false_iff, Ne, ← Bool.not_eq_true] <;> tauto

/-- C4: the decision never has both flags false, and the empty commit list
yields both flags true. -/
theorem analyzeCommits_never_both_false :
    (∀ cs : List Commit,
      ((analyzeCommits cs).bumpBot || (analyzeCommits cs).bumpApi) = true) ∧
    (analyzeCommits []).bumpBot = true ∧ (analyzeCommits []).bumpApi = true := by
  refine ⟨?_, rfl, rfl⟩
  intro cs
  cases hb : cs.any fun c => matchesAny botPats c.message <;>
    cases ha : cs.any fun c => matchesAny apiPats c.message <;>
    simp [analyzeCommits, hb, ha]

/-! ### Lemmas: file-store reads and writes -/

theorem readFs_writeFs_same (fs : FileSystem) (p c : String) :
    readFs (writeFs fs p c) p = some c := by
  unfold readFs writeFs
  rw [List.find?_cons_of_pos _ (by simp)]
  rfl

theorem readFs_writeFs_other (fs : FileSystem) (p c q : String) (h : q ≠ p) :
    readFs (writeFs fs p c) q = readFs fs q := by
  unfold readFs writeFs
  rw [List.find?_cons_of_neg _ (by simp only [beq_iff_eq]; exact fun e => h e.symm)]

theorem updatePythonVersionFs_frame (fs fs' : FileSystem) (path v q : String)
    (h : updatePythonVersionFs fs path v = some fs') (hq : q ≠ path) :
    readFs fs' q = readFs fs q := by
  unfold updatePythonVersionFs at h
  cases hr : readFs fs path with
  | none => rw [hr] at h; exact absurd h (by simp)
  | some content =>
    rw [hr] at h
    simp only [Option.some.injEq] at h
    rw [← h]
    exact readFs_writeFs_other fs path _ q hq

theorem updatePyprojectVersionFs_frame (fs fs' : FileSystem) (path v q : String)
    (h : updatePyprojectVersionFs fs path v = some fs') (hq : q ≠ path) :
    readFs fs' q = readFs fs q := by
  unfold updatePyprojectVersionFs at h
  cases hr : readFs fs path with
  | none => rw [hr] at h; exact absurd h (by simp)
  | some content =>
    rw [hr] at h
    simp only [Option.some.injEq] at h
    rw [← h]
    exact readFs_writeFs_other fs path _ q hq

theorem updatePyprojectVersionFs_reads (fs fs' : FileSystem)
    (path v content : String) (hr : readFs fs path = some content)
    (h : updatePyprojectVersionFs fs path v = some fs') :
    readFs fs' path = some (updatePyprojectVersionContent content v) := by
  unfold updatePyprojectVersionFs at h
  rw [hr] at h
  simp only [Option.some.injEq] at h
  rw [← h]
  exact readFs_writeFs_same fs path _

theorem botStep_false (cfg : PluginConfig) (v : String) (fs : FileSystem) :
    botStep cfg false v fs = .ok fs := rfl

theorem apiStep_frame (cfg : PluginConfig) (b : Bool) (v : String)
    (fs fs1 : FileSystem) (q : String) (h : apiStep cfg b v fs = .ok fs1)
    (hq : q ≠ cfg.apiVersionFile) : readFs fs1 q = readFs fs q := by
  unfold apiStep at h
  cases b with
  | false =>
    rw [if_neg Bool.false_ne_true] at h
    simp only [Except.ok.injEq] at h
    rw [← h]
  | true =>
    rw [if_pos rfl] at h
    cases hu : updatePythonVersionFs fs cfg.apiVersionFile v with
    | none => simp only [hu] at h; exact absurd h (by simp)
    | some fs2 =>
      simp only [hu, Except.ok.injEq] at h
      rw [← h]
      exact updatePythonVersionFs_frame fs fs2 _ v q hu hq

theorem botStep_true_pyproject (cfg : PluginConfig) (v : String)
    (fs fs1 : FileSystem) (pp content : String)
    (hpp : cfg.pyprojectFile = some pp) (hb : pp ≠ cfg.botVersionFile)
    (hne : pp.isEmpty = false) (hc : readFs fs pp = some content)
    (h : botStep cfg true v fs = .ok fs1) :
    readFs fs1 pp = some (updatePyprojectVersionContent content v) := by
  unfold botStep at h
  cases hu : updatePythonVersionFs fs cfg.botVersionFile v with
  | none => simp only [hu, hpp] at h; exact absurd h (by simp)
  | some fsB =>
    have hcB : readFs fsB pp = some content := by
      rw [updatePythonVersionFs_frame fs fsB _ v pp hu hb]
      exact hc
    have hex : existsFs fsB pp = true := by
      unfold existsFs
      rw [hcB]
      rfl
    simp only [hu, hpp, hne, hex, Bool.not_false, Bool.true_and, if_true] at h
    cases hup : updatePyprojectVersionFs fsB pp v with
    | none => simp only [hup] at h; exact absurd h (by simp)
    | some fsP =>
      simp only [hup, Except.ok.injEq] at h
      rw [← h]
      exact updatePyprojectVersionFs_reads fsB fsP pp v content hcB hup

/-! ### Claim theorems: the `prepare` orchestration -/

/-- C5: with current bot version `2.0.0`, current api version `1.5.2`,
release type `minor` and the single commit `feat(bot): x`, `prepare` bumps
the bot to `2.1.0`, leaves the api file and its version `1.5.2` unchanged,
and returns the bot's version `2.1.0` as the primary `version`. -/
theorem prepare_minor_bot_concrete :
    prepare ⟨"src/bot/init.py", "src/api/init.py", some "pyproject.toml"⟩
        [⟨"feat(bot): x"⟩] "minor" true
        [("src/bot/init.py", "__version__ = \"2.0.0\"\n"),
         ("src/api/init.py", "__version__ = \"1.5.2\"\n"),
         ("pyproject.toml", "version = \"2.0.0\"\n")] =
      .ok ({ botVersion := "2.1.0", apiVersion := "1.5.2", version := "2.1.0",
             syncWarned := false },
        [("pyproject.toml", "version = \"2.1.0\"\n"),
         ("src/bot/init.py", "__version__ = \"2.1.0\"\n"),
         ("src/bot/init.py", "__version__ = \"2.0.0\"\n"),
         ("src/api/init.py", "__version__ = \"1.5.2\"\n"),
         ("pyproject.toml", "version = \"2.0.0\"\n")]) ∧
    readPythonVersionFs
        [("pyproject.toml", "version = \"2.1.0\"\n"),
         ("src/bot/init.py", "__version__ = \"2.1.0\"\n"),
         ("src/bot/init.py", "__version__ = \"2.0.0\"\n"),
         ("src/api/init.py", "__version__ = \"1.5.2\"\n"),
         ("pyproject.toml", "version = \"2.0.0\"\n")] "src/api/init.py" =
      some "1.5.2" := ⟨rfl, rfl⟩

/-- C6: if either component's current version cannot be read, `prepare`
aborts with the read error and the returned file store is exactly the input
store — nothing has been written to any persisted location. -/
theorem prepare_read_failure_aborts (cfg : PluginConfig) (commits : List Commit)
    (releaseType : String) (syncOk : Bool) (fs : FileSystem)
    (h : readPythonVersionFs fs cfg.botVersionFile = none ∨
         readPythonVersionFs fs cfg.apiVersionFile = none) :
    prepare cfg commits releaseType syncOk fs =
      .error ("Could not read current versions from Python files", fs) := by
  have hcond : (jsFalsyOpt (readPythonVersionFs fs cfg.botVersionFile) ||
      jsFalsyOpt (readPythonVersionFs fs cfg.apiVersionFile)) = true := by
    rcases h with h | h <;> rw [h] <;> simp [jsFalsyOpt]
  simp only [prepare, prepareSteps, hcond]
  rfl

theorem prepare_read_failure_aborts_witness :
    prepare ⟨"bot.py", "api.py", none⟩ [] "patch" true [] =
      .error ("Could not read current versions from Python files", []) :=
  prepare_read_failure_aborts ⟨"bot.py", "api.py", none⟩ [] "patch" true []
    (Or.inl rfl)

/-- C8 counterexample: a current-version string that fails the
`\d+\.\d+\.\d+` shape (here carrying a pre-release suffix) is not rejected as
a parse error; the read step accepts it and returns it. -/
theorem readPythonVersion_accepts_nonsemver :
    readPythonVersionContent "__version__ = \"1.2.3-rc1\"\n" =
      some "1.2.3-rc1" := rfl

/-- C8 amended: reading performs no shape validation — a malformed version
string is accepted and propagated into version calculation, where e.g. a
patch bump of `1.2.3-rc1` produces `1.2.NaN`. -/
theorem readPythonVersion_no_shape_validation :
    readPythonVersionFs [("bot.py", "__version__ = \"1.2.3-rc1\"\n")] "bot.py" =
      some "1.2.3-rc1" ∧
    calculateNextVersion "1.2.3-rc1" "patch" = "1.2.NaN" := ⟨rfl, rfl⟩

/-- C9: if `prepare` succeeds when the wrapper sync succeeds, then with a
failing wrapper sync and otherwise identical inputs it still succeeds with
the same versions and the same file store — only the warning flag flips; in
the successful-sync run no warning was reported. -/
theorem prepare_sync_failure_nonfatal (cfg : PluginConfig)
    (commits : List Commit) (releaseType : String) (fs : FileSystem)
    (r : PrepareResult) (fs1 : FileSystem)
    (h : prepare cfg commits releaseType true fs = .ok (r, fs1)) :
    prepare cfg commits releaseType false fs =
      .ok ({ botVersion := r.botVersion, apiVersion := r.apiVersion,
             version := r.version, syncWarned := true }, fs1) ∧
    r.syncWarned = false := by
  unfold prepare at h ⊢
  cases hs : prepareSteps cfg commits releaseType fs with
  | error e => rw [hs] at h; exact absurd h (by simp)
  | ok v =>
    obtain ⟨bv, av, f⟩ := v
    rw [hs] at h
    simp only [Except.ok.injEq, Prod.mk.injEq] at h
    obtain ⟨hr, hf⟩ := h
    subst hf
    subst hr
    exact ⟨rfl, rfl⟩

/-- C10: in a successful `prepare` run with a configured pyproject path
distinct from the two component files, the pyproject content is unchanged
when `bumpBot` is false, and is exactly the pyproject rewrite with the bot's
new version when `bumpBot` is true and the file exists. -/
theorem prepare_pyproject_frame (cfg : PluginConfig) (commits : List Commit)
    (releaseType : String) (syncOk : Bool) (fs : FileSystem) (pp : String)
    (r : PrepareResult) (fs' : FileSystem)
    (hpp : cfg.pyprojectFile = some pp)
    (hb : pp ≠ cfg.botVersionFile) (ha : pp ≠ cfg.apiVersionFile)
    (hok : prepare cfg commits releaseType syncOk fs = .ok (r, fs')) :
    ((analyzeCommits commits).bumpBot = false → readFs fs' pp = readFs fs pp) ∧
    ((analyzeCommits commits).bumpBot = true → ∀ content, pp.isEmpty = false →
      readFs fs pp = some content →
      readFs fs' pp = some (updatePyprojectVersionContent content r.botVersion)) := by
  unfold prepare at hok
  cases hs : prepareSteps cfg commits releaseType fs with
  | error e => rw [hs] at hok; exact absurd hok (by simp)
  | ok v =>
    obtain ⟨bv, av, f⟩ := v
    rw [hs] at hok
    simp only [Except.ok.injEq, Prod.mk.injEq] at hok
    obtain ⟨hr, hf⟩ := hok
    subst hf
    subst hr
    simp only [prepareSteps] at hs
    split at hs
    · exact absurd hs (by simp)
    · split at hs
      · exact absurd hs (by simp)
      · rename_i fsB hbs
        split at hs
        · exact absurd hs (by simp)
        · rename_i fsA has
          simp only [Except.ok.injEq, Prod.mk.injEq] at hs
          obtain ⟨hbv, hav, hf⟩ := hs
          subst hf
          have hApi := apiStep_frame cfg _ _ fsB fsA pp has ha
          constructor
          · intro hfalse
            rw [hfalse, botStep_false] at hbs
            simp only [Except.ok.injEq] at hbs
            rw [hApi, ← hbs]
          · intro htrue content hne hc
            rw [if_pos htrue, htrue] at hbs
            rw [hApi, ← hbv, if_pos htrue]
            exact botStep_true_pyproject cfg _ fs fsB pp content hpp hb hne hc hbs

theorem prepare_sync_failure_nonfatal_witness :
    prepare ⟨"b.py", "a.py", none⟩ [⟨"docs: x"⟩] "patch" false
        [("b.py", "__version__ = \"1.0.0\"\n"),
         ("a.py", "__version__ = \"2.0.0\"\n")] =
      .ok ({ botVersion := "1.0.1", apiVersion := "2.0.1", version := "1.0.1",
             syncWarned := true },
        [("a.py", "__version__ = \"2.0.1\"\n"),
         ("b.py", "__version__ = \"1.0.1\"\n"),
         ("b.py", "__version__ = \"1.0.0\"\n"),
         ("a.py", "__version__ = \"2.0.0\"\n")]) ∧
    ({ botVersion := "1.0.1", apiVersion := "2.0.1", version := "1.0.1",
       syncWarned := false } : PrepareResult).syncWarned = false :=
  prepare_sync_failure_nonfatal ⟨"b.py", "a.py", none⟩ [⟨"docs: x"⟩] "patch"
    [("b.py", "__version__ = \"1.0.0\"\n"),
     ("a.py", "__version__ = \"2.0.0\"\n")]
    { botVersion := "1.0.1", apiVersion := "2.0.1", version := "1.0.1",
      syncWarned := false }
    [("a.py", "__version__ = \"2.0.1\"\n"),
     ("b.py", "__version__ = \"1.0.1\"\n"),
     ("b.py", "__version__ = \"1.0.0\"\n"),
     ("a.py", "__version__ = \"2.0.0\"\n")]
    rfl

theorem prepare_pyproject_frame_witness :
    readFs
        [("a.py", "__version__ = \"2.0.1\"\n"),
         ("b.py", "__version__ = \"1.0.0\"\n"),
         ("a.py", "__version__ = \"2.0.0\"\n"),
         ("p.toml", "version = \"9.9.9\"\n")] "p.toml" =
      readFs
        [("b.py", "__version__ = \"1.0.0\"\n"),
         ("a.py", "__version__ = \"2.0.0\"\n"),
         ("p.toml", "version = \"9.9.9\"\n")] "p.toml" :=
  (prepare_pyproject_frame ⟨"b.py", "a.py", some "p.toml"⟩ [⟨"api: x"⟩] "patch"
    true
    [("b.py", "__version__ = \"1.0.0\"\n"),
     ("a.py", "__version__ = \"2.0.0\"\n"),
     ("p.toml", "version = \"9.9.9\"\n")]
    "p.toml"
    { botVersion := "1.0.0", apiVersion := "2.0.1", version := "1.0.0",
      syncWarned := false }
    [("a.py", "__version__ = \"2.0.1\"\n"),
     ("b.py", "__version__ = \"1.0.0\"\n"),
     ("a.py", "__version__ = \"2.0.0\"\n"),
     ("p.toml", "version = \"9.9.9\"\n")]
    rfl (by decide) (by decide) rfl).1 rfl

/-! ### Lemmas for the round-trip property (C7)

The updater replaces the leftmost match of the version regex by the
replacement text, which itself has the shape of a full match (`VShape`).  The
key fact is that whether the matcher succeeds at a position strictly before
the replaced region does not depend on which `VShape` region follows
(`matchVersionAt_shape_congr`), so the leftmost match of the rewritten
content is the replacement itself and reading back returns the new version. -/

theorem ws_notQuote (c : Char) (h : jsWS c = true) : notQuote c = true := by
  unfold notQuote isQuote
  simp only [Bool.not_eq_true', Bool.or_eq_false_iff, beq_eq_false_iff_ne, ne_eq]
  constructor <;> intro hc <;> subst hc <;> exact absurd h (by decide)

theorem quote_not_ws (c : Char) (h : isQuote c = true) : jsWS c = false := by
  unfold isQuote at h
  simp only [Bool.or_eq_true, beq_iff_eq] at h
  rcases h with h | h <;> subst h <;> decide

theorem notQuote_false_iff (c : Char) : notQuote c = false ↔ isQuote c = true := by
  unfold notQuote
  simp

theorem verLit_all_notQuote : ∀ c ∈ verLit, notQuote c = true := by decide

theorem verLit_all_not_ws : ∀ c ∈ verLit, jsWS c = false := by decide

/-! #### `dropLit` facts -/

theorem dropLit_self : ∀ lit cs, dropLit lit (lit ++ cs) = some cs := by
  intro lit
  induction lit with
  | nil => intro cs; rfl
  | cons l ls ih =>
    intro cs
    simp only [List.cons_append, dropLit, beq_self_eq_true, if_true]
    exact ih cs

theorem dropLit_some_eq : ∀ lit s r, dropLit lit s = some r → s = lit ++ r := by
  intro lit
  induction lit with
  | nil =>
    intro s r h
    simp only [dropLit, Option.some.injEq] at h
    rw [h, List.nil_append]
  | cons l ls ih =>
    intro s r h
    cases s with
    | nil => exact absurd h (by simp [dropLit])
    | cons c cs =>
      simp only [dropLit] at h
      by_cases hc : c == l
      · rw [if_pos hc] at h
        rw [List.cons_append, ← ih cs r h]
        rw [show c = l from by simpa using hc]
      · rw [if_neg hc] at h
        exact absurd h (by simp)

theorem dropLit_append_some : ∀ lit s r t, dropLit lit s = some r →
    dropLit lit (s ++ t) = some (r ++ t) := by
  intro lit s r t h
  rw [dropLit_some_eq lit s r h, List.append_assoc, dropLit_self]

theorem dropLit_none_cases : ∀ lit s, dropLit lit s = none →
    (∀ t, dropLit lit (s ++ t) = none) ∨
    (s.length < lit.length ∧ s = lit.take s.length ∧
      ∀ t, dropLit lit (s ++ t) = dropLit (lit.drop s.length) t) := by
  intro lit
  induction lit with
  | nil =>
    intro s h
    cases s <;> exact absurd h (by simp [dropLit])
  | cons l ls ih =>
    intro s h
    cases s with
    | nil =>
      right
      refine ⟨by simp, rfl, fun t => ?_⟩
      rfl
    | cons c cs =>
      simp only [dropLit] at h
      by_cases hc : c == l
      · rw [if_pos hc] at h
        have hcl : c = l := by simpa using hc
        subst hcl
        rcases ih cs h with hL | ⟨h1, h2, h3⟩
        · left
          intro t
          simp only [List.cons_append, dropLit, beq_self_eq_true, if_true]
          exact hL t
        · right
          refine ⟨by simpa using h1, ?_, fun t => ?_⟩

          · simp only [List.length_cons, List.take_succ_cons]
            exact congrArg _ h2
          · simp only [List.cons_append, dropLit, beq_self_eq_true, if_true,
              List.length_cons, List.drop_succ_cons]
            exact h3 t
      · left
        intro t
        simp only [List.cons_append, dropLit, if_neg hc]

/-! #### `takeWhile` and `dropWhile` helpers -/

theorem dropWhile_head_false {α : Type} {p : α → Bool} : ∀ {l : List α}
    {c : α} {t : List α}, l.dropWhile p = c :: t → p c = false := by
  intro l
  induction l with
  | nil => intro c t h; exact absurd h (by simp)
  | cons a l ih =>
    intro c t h
    by_cases hp : p a = true
    · rw [List.dropWhile_cons_of_pos hp] at h
      exact ih h
    · rw [List.dropWhile_cons_of_neg hp] at h
      cases h
      exact Bool.eq_false_iff.mpr hp

theorem takeWhile_decomp {α : Type} {p : α → Bool} {l : List α} {c : α}
    {t : List α} (h : l.dropWhile p = c :: t) :
    l = l.takeWhile p ++ c :: t := by
  rw [← h, List.takeWhile_append_dropWhile]

/-! #### Stage lemmas: matcher progress over a prefix followed by a shaped
region is independent of the region's internals -/

theorem shape_take_drop (ws1 ws2 : List Char) (q1 : Char) (cap : List Char)
    (q2 : Char) (rest : List Char) (hw1 : ws1.all jsWS = true)
    (hw2 : ws2.all jsWS = true) (hq1 : isQuote q1 = true) :
    ((verLit ++ ws1 ++ '=' :: (ws2 ++ q1 :: (cap ++ [q2]))) ++ rest).takeWhile
        notQuote = verLit ++ ws1 ++ '=' :: ws2 ∧
    ((verLit ++ ws1 ++ '=' :: (ws2 ++ q1 :: (cap ++ [q2]))) ++ rest).dropWhile
        notQuote = q1 :: (cap ++ (q2 :: rest)) := by
  have hq1f : notQuote q1 = false := (notQuote_false_iff q1).mpr hq1
  have hassoc : (verLit ++ ws1 ++ '=' :: (ws2 ++ q1 :: (cap ++ [q2]))) ++ rest =
      (verLit ++ ws1 ++ '=' :: ws2) ++ (q1 :: (cap ++ (q2 :: rest))) := by
    simp [List.append_assoc]
  have hPall : ∀ c ∈ verLit ++ ws1 ++ '=' :: ws2, notQuote c = true := by
    intro c hc
    rcases List.mem_append.mp hc with hc | hc
    · rcases List.mem_append.mp hc with hc | hc
      · exact verLit_all_notQuote c hc
      · exact ws_notQuote c (List.all_eq_true.mp hw1 c hc)
    · rcases List.mem_cons.mp hc with rfl | hc
      · decide
      · exact ws_notQuote c (List.all_eq_true.mp hw2 c hc)
  rw [hassoc]
  constructor
  · rw [List.takeWhile_append_of_pos hPall,
      List.takeWhile_cons_of_neg (by simp [hq1f]), List.append_nil]
  · rw [List.dropWhile_append_of_pos hPall,
      List.dropWhile_cons_of_neg (by simp [hq1f])]

theorem afterQuote_append_all (g X : List Char)
    (hgall : ∀ c ∈ g, notQuote c = true) :
    afterQuote (g ++ X) =
      if (g ++ X.takeWhile notQuote).isEmpty then none
      else
        match X.dropWhile notQuote with
        | [] => none
        | _ :: r7 => some (g ++ X.takeWhile notQuote, r7) := by
  unfold afterQuote
  rw [List.takeWhile_append_of_pos hgall, List.dropWhile_append_of_pos hgall]

theorem afterQuote_stop (g X : List Char) (hall : g.all notQuote = false) :
    (afterQuote (g ++ X)).isSome = !(g.takeWhile notQuote).isEmpty := by
  have hex : g.dropWhile notQuote ≠ [] := by
    rw [Ne, List.dropWhile_eq_nil_iff]
    intro hforall
    rw [List.all_eq_true.mpr hforall] at hall
    exact absurd hall (by decide)
  obtain ⟨q', g4, hdg⟩ := List.exists_cons_of_ne_nil hex
  have hq'f : notQuote q' = false := dropWhile_head_false hdg
  have htall : ∀ c ∈ g.takeWhile notQuote, notQuote c = true :=
    fun c hc => List.mem_takeWhile_imp hc
  have hassoc : g ++ X = g.takeWhile notQuote ++ (q' :: (g4 ++ X)) := by
    conv_lhs => rw [takeWhile_decomp hdg]
    simp [List.append_assoc]
  rw [hassoc]
  unfold afterQuote
  rw [List.takeWhile_append_of_pos htall,
    List.takeWhile_cons_of_neg (by simp [hq'f]), List.append_nil,
    List.dropWhile_append_of_pos htall,
    List.dropWhile_cons_of_neg (by simp [hq'f])]
  cases hte : (g.takeWhile notQuote).isEmpty <;> simp [hte]

theorem afterQuote_shape (m : List Char) (hm : VShape m) (g rest : List Char) :
    (afterQuote (g ++ (m ++ rest))).isSome = scanQuoteTail g := by
  obtain ⟨ws1, ws2, q1, cap, q2, hw1, hw2, hq1, hq2, hcne, hcq, rfl⟩ := hm
  obtain ⟨htk, hdp⟩ := shape_take_drop ws1 ws2 q1 cap q2 rest hw1 hw2 hq1
  by_cases hall : g.all notQuote = true
  · rw [afterQuote_append_all g _ (List.all_eq_true.mp hall), htk, hdp]
    have hne : (g ++ (verLit ++ ws1 ++ '=' :: ws2)).isEmpty = false := by simp
    simp [hne, scanQuoteTail, hall]
  · have hall' : g.all notQuote = false := Bool.eq_false_iff.mpr hall
    rw [afterQuote_stop g _ hall']
    simp [scanQuoteTail, hall']

theorem shape_head_cons (m : List Char) (hm : VShape m) : ∃ u, m = '_' :: u := by
  obtain ⟨ws1, ws2, q1, cap, q2, _, _, _, _, _, _, rfl⟩ := hm
  exact ⟨_, rfl⟩

theorem afterEq_shape (m : List Char) (hm : VShape m) (g rest : List Char) :
    (afterEq (g ++ (m ++ rest))).isSome = scanEqTail g := by
  cases hdg : g.dropWhile jsWS with
  | nil =>
    have hgws : ∀ c ∈ g, jsWS c = true := List.dropWhile_eq_nil_iff.mp hdg
    obtain ⟨u, hu⟩ := shape_head_cons m hm
    have hdw : (g ++ (m ++ rest)).dropWhile jsWS = '_' :: (u ++ rest) := by
      rw [List.dropWhile_append_of_pos hgws, hu, List.cons_append,
        List.dropWhile_cons_of_neg (by decide)]
    unfold afterEq
    rw [hdw]
    dsimp only
    rw [if_neg (by decide)]
    unfold scanEqTail
    rw [hdg]
    rfl
  | cons q g5 =>
    have hqws : jsWS q = false := dropWhile_head_false hdg
    have htall : ∀ c ∈ g.takeWhile jsWS, jsWS c = true :=
      fun c hc => List.mem_takeWhile_imp hc
    have hassoc : g ++ (m ++ rest) =
        g.takeWhile jsWS ++ (q :: (g5 ++ (m ++ rest))) := by
      conv_lhs => rw [takeWhile_decomp hdg]
      simp [List.append_assoc]
    have hdw : (g ++ (m ++ rest)).dropWhile jsWS = q :: (g5 ++ (m ++ rest)) := by
      rw [hassoc, List.dropWhile_append_of_pos htall,
        List.dropWhile_cons_of_neg (by simp [hqws])]
    unfold afterEq
    rw [hdw]
    unfold scanEqTail
    rw [hdg]
    dsimp only
    by_cases hq : isQuote q = true
    · rw [if_pos hq, if_pos hq]
      exact afterQuote_shape m hm g5 rest
    · rw [if_neg hq, if_neg hq]
      rfl

theorem afterLit_shape (m : List Char) (hm : VShape m) (g rest : List Char) :
    (afterLit (g ++ (m ++ rest))).isSome = scanLitTail g := by
  cases hdg : g.dropWhile jsWS with
  | nil =>
    have hgws : ∀ c ∈ g, jsWS c = true := List.dropWhile_eq_nil_iff.mp hdg
    obtain ⟨u, hu⟩ := shape_head_cons m hm
    have hdw : (g ++ (m ++ rest)).dropWhile jsWS = '_' :: (u ++ rest) := by
      rw [List.dropWhile_append_of_pos hgws, hu, List.cons_append,
        List.dropWhile_cons_of_neg (by decide)]
    unfold afterLit
    rw [hdw]
    dsimp only
    rw [if_neg (by decide)]
    unfold scanLitTail
    rw [hdg]
    rfl
  | cons c g3 =>
    have hcws : jsWS c = false := dropWhile_head_false hdg
    have htall : ∀ x ∈ g.takeWhile jsWS, jsWS x = true :=
      fun x hx => List.mem_takeWhile_imp hx
    have hassoc : g ++ (m ++ rest) =
        g.takeWhile jsWS ++ (c :: (g3 ++ (m ++ rest))) := by
      conv_lhs => rw [takeWhile_decomp hdg]
      simp [List.append_assoc]
    have hdw : (g ++ (m ++ rest)).dropWhile jsWS = c :: (g3 ++ (m ++ rest)) := by
      rw [hassoc, List.dropWhile_append_of_pos htall,
        List.dropWhile_cons_of_neg (by simp [hcws])]
    unfold afterLit
    rw [hdw]
    unfold scanLitTail
    rw [hdg]
    dsimp only
    by_cases hc : (c == '=') = true
    · rw [if_pos hc, if_pos hc]
      exact afterEq_shape m hm g3 rest
    · rw [if_neg hc, if_neg hc]
      rfl

theorem matchVersionAt_shape_isSome (m : List Char) (hm : VShape m)
    (rest : List Char) : (matchVersionAt (m ++ rest)).isSome = true := by
  obtain ⟨ws1, ws2, q1, cap, q2, hw1, hw2, hq1, hq2, hcne, hcq, rfl⟩ := hm
  unfold matchVersionAt
  have hassoc : (verLit ++ ws1 ++ '=' :: (ws2 ++ q1 :: (cap ++ [q2]))) ++ rest =
      verLit ++ (ws1 ++ ('=' :: ((ws2 ++ q1 :: (cap ++ [q2])) ++ rest))) := by
    simp [List.append_assoc]
  rw [hassoc, dropLit_self, Option.some_bind]
  unfold afterLit
  have hdw1 : (ws1 ++ ('=' :: ((ws2 ++ q1 :: (cap ++ [q2])) ++ rest))).dropWhile
      jsWS = '=' :: ((ws2 ++ q1 :: (cap ++ [q2])) ++ rest) := by
    rw [List.dropWhile_append_of_pos (List.all_eq_true.mp hw1),
      List.dropWhile_cons_of_neg (by decide)]
  rw [hdw1]
  dsimp only
  rw [if_pos (by decide)]
  have hassoc2 : (ws2 ++ q1 :: (cap ++ [q2])) ++ rest =
      ws2 ++ (q1 :: (cap ++ (q2 :: rest))) := by
    simp [List.append_assoc]
  rw [hassoc2]
  unfold afterEq
  have hdw2 : (ws2 ++ (q1 :: (cap ++ (q2 :: rest)))).dropWhile jsWS =
      q1 :: (cap ++ (q2 :: rest)) := by
    rw [List.dropWhile_append_of_pos (List.all_eq_true.mp hw2),
      List.dropWhile_cons_of_neg (by simp [quote_not_ws q1 hq1])]
  rw [hdw2]
  dsimp only
  rw [if_pos hq1]
  unfold afterQuote
  have hq2f : notQuote q2 = false := (notQuote_false_iff q2).mpr hq2
  rw [List.takeWhile_append_of_pos hcq,
    List.takeWhile_cons_of_neg (by simp [hq2f]), List.append_nil,
    List.dropWhile_append_of_pos hcq,
    List.dropWhile_cons_of_neg (by simp [hq2f])]
  have hce : cap.isEmpty = false := by simp [hcne]
  rw [hce]
  simp

theorem verLit_eq : verLit =
    ['_', '_', 'v', 'e', 'r', 's', 'i', 'o', 'n', '_', '_'] := rfl

theorem crossLit_uniform (k : Nat) (hk : k < 11) (m : List Char)
    (hm : VShape m) (rest : List Char) :
    ((dropLit (verLit.drop k) (m ++ rest)).bind afterLit).isSome = (k == 0) := by
  obtain ⟨ws1, ws2, q1, cap, q2, hw1, hw2, hq1, hq2, hcne, hcq, hmeq⟩ := hm
  interval_cases k
  · simp only [List.drop_zero]
    have hs := matchVersionAt_shape_isSome m
      ⟨ws1, ws2, q1, cap, q2, hw1, hw2, hq1, hq2, hcne, hcq, hmeq⟩ rest
    unfold matchVersionAt at hs
    rw [hs]
    rfl
  all_goals
    subst hmeq
    simp [verLit_eq, dropLit, afterLit, jsWS, Char.isWhitespace]

theorem matchVersionAt_shape_congr (s m₁ m₂ rest : List Char)
    (h1 : VShape m₁) (h2 : VShape m₂) :
    (matchVersionAt (s ++ (m₁ ++ rest))).isSome =
      (matchVersionAt (s ++ (m₂ ++ rest))).isSome := by
  unfold matchVersionAt
  cases hdl : dropLit verLit s with
  | some r =>
    rw [dropLit_append_some verLit s r (m₁ ++ rest) hdl,
      dropLit_append_some verLit s r (m₂ ++ rest) hdl,
      Option.some_bind, Option.some_bind,
      afterLit_shape m₁ h1 r rest, afterLit_shape m₂ h2 r rest]
  | none =>
    rcases dropLit_none_cases verLit s hdl with hL | ⟨hlen, hpre, hrec⟩
    · rw [hL (m₁ ++ rest), hL (m₂ ++ rest)]
    · have hk : s.length < 11 := by
        rw [verLit_eq] at hlen
        simpa using hlen
      rw [hrec (m₁ ++ rest), hrec (m₂ ++ rest),
        crossLit_uniform s.length hk m₁ h1 rest,
        crossLit_uniform s.length hk m₂ h2 rest]

theorem matchVersionAt_some_decomp (xs cap rest : List Char)
    (h : matchVersionAt xs = some (cap, rest)) :
    ∃ mid, xs = mid ++ rest ∧ VShape mid := by
  unfold matchVersionAt at h
  cases hdl : dropLit verLit xs with
  | none => rw [hdl] at h; exact absurd h (by simp)
  | some r1 =>
    rw [hdl, Option.some_bind] at h
    have hxs : xs = verLit ++ r1 := dropLit_some_eq verLit xs r1 hdl
    unfold afterLit at h
    cases hdw : r1.dropWhile jsWS with
    | nil => rw [hdw] at h; exact absurd h (by simp)
    | cons c r3 =>
      rw [hdw] at h
      dsimp only at h
      by_cases hc : (c == '=') = true
      · rw [if_pos hc] at h
        have hceq : c = '=' := by simpa using hc
        subst hceq
        unfold afterEq at h
        cases hdw2 : r3.dropWhile jsWS with
        | nil => rw [hdw2] at h; exact absurd h (by simp)
        | cons q r5 =>
          rw [hdw2] at h
          dsimp only at h
          by_cases hq : isQuote q = true
          · rw [if_pos hq] at h
            unfold afterQuote at h
            by_cases hte : (r5.takeWhile notQuote).isEmpty = true
            · rw [if_pos hte] at h; exact absurd h (by simp)
            · rw [if_neg hte] at h
              cases hdw3 : r5.dropWhile notQuote with
              | nil => rw [hdw3] at h; exact absurd h (by simp)
              | cons q2 r7 =>
                rw [hdw3] at h
                dsimp only at h
                simp only [Option.some.injEq, Prod.mk.injEq] at h
                obtain ⟨hcap, hrest⟩ := h
                refine ⟨verLit ++ r1.takeWhile jsWS ++ '=' ::
                  (r3.takeWhile jsWS ++ q :: (r5.takeWhile notQuote ++ [q2])),
                  ?_, ?_⟩
                · rw [hxs, ← hrest]
                  conv_lhs => rw [takeWhile_decomp hdw]
                  conv_lhs => rw [takeWhile_decomp hdw2]
                  conv_lhs => rw [takeWhile_decomp hdw3]
                  simp [List.append_assoc]
                · refine ⟨r1.takeWhile jsWS, r3.takeWhile jsWS, q,
                    r5.takeWhile notQuote, q2, ?_, ?_, hq, ?_, ?_, ?_, rfl⟩
                  · exact List.all_eq_true.mpr fun x hx => List.mem_takeWhile_imp hx
                  · exact List.all_eq_true.mpr fun x hx => List.mem_takeWhile_imp hx
                  · exact (notQuote_false_iff q2).mp (dropWhile_head_false hdw3)
                  · intro hnil
                    rw [hnil] at hte
                    exact hte rfl
                  · exact fun x hx => List.mem_takeWhile_imp hx
          · rw [if_neg hq] at h; exact absurd h (by simp)
      · rw [if_neg hc] at h; exact absurd h (by simp)

theorem VShape_pyRepl (v : String) (h1 : v.data ≠ [])
    (h2 : ∀ c ∈ v.data, notQuote c = true) : VShape (pyRepl v) :=
  ⟨[' '], [' '], '"', v.data, '"', by decide, by decide, by decide, by decide,
    h1, h2, rfl⟩

theorem matchVersionAt_pyRepl (v : String) (h1 : v.data ≠ [])
    (h2 : ∀ c ∈ v.data, notQuote c = true) (rest : List Char) :
    matchVersionAt (pyRepl v ++ rest) = some (v.data, rest) := by
  unfold matchVersionAt
  have hassoc : pyRepl v ++ rest =
      verLit ++ (' ' :: '=' :: ' ' :: '"' :: (v.data ++ ('"' :: rest))) := by
    unfold pyRepl
    rw [show "__version__ = \"".data =
      verLit ++ (' ' :: '=' :: ' ' :: ['"']) from rfl]
    simp [List.append_assoc]
  rw [hassoc, dropLit_self, Option.some_bind]
  unfold afterLit
  rw [List.dropWhile_cons_of_pos (by decide),
    List.dropWhile_cons_of_neg (by decide)]
  dsimp only
  rw [if_pos (by decide)]
  unfold afterEq
  rw [List.dropWhile_cons_of_pos (by decide),
    List.dropWhile_cons_of_neg (by decide)]
  dsimp only
  rw [if_pos (by decide)]
  unfold afterQuote
  have hq2f : notQuote '"' = false := by decide
  rw [List.takeWhile_append_of_pos h2,
    List.takeWhile_cons_of_neg (by simp [hq2f]), List.append_nil,
    List.dropWhile_append_of_pos h2,
    List.dropWhile_cons_of_neg (by simp [hq2f])]
  have hce : (v.data).isEmpty = false := by simp [h1]
  rw [hce]
  simp

theorem findVersion_head_some (x cap rest : List Char) (hne : x ≠ [])
    (h : matchVersionAt x = some (cap, rest)) : findVersion x = some cap := by
  cases x with
  | nil => exact absurd rfl hne
  | cons c t => simp [findVersion, h]

theorem replaceVersion_decomp : ∀ cs : List Char,
    (findVersion cs).isSome = true → ∀ R : List Char,
    ∃ a mid rest, cs = a ++ (mid ++ rest) ∧ VShape mid ∧
      replaceVersion R cs = a ++ (R ++ rest) := by
  intro cs
  induction cs with
  | nil => intro h; exact absurd h (by simp [findVersion])
  | cons c cs ih =>
    intro h R
    cases hm : matchVersionAt (c :: cs) with
    | some pr =>
      obtain ⟨cap, rest⟩ := pr
      obtain ⟨mid, heq, hshape⟩ := matchVersionAt_some_decomp (c :: cs) cap rest hm
      refine ⟨[], mid, rest, by simpa using heq, hshape, ?_⟩
      simp only [replaceVersion, hm]
      simp
    | none =>
      have h' : (findVersion cs).isSome = true := by
        simpa [findVersion, hm] using h
      obtain ⟨a, mid, rest, heq, hshape, hrep⟩ := ih h' R
      refine ⟨c :: a, mid, rest, by simp [heq], hshape, ?_⟩
      simp only [replaceVersion, hm]
      simp [hrep]

theorem findVersion_replaceVersion (v : String) (hv1 : v.data ≠ [])
    (hv2 : ∀ c ∈ v.data, notQuote c = true) : ∀ cs : List Char,
    (findVersion cs).isSome = true →
    findVersion (replaceVersion (pyRepl v) cs) = some v.data := by
  intro cs
  induction cs with
  | nil => intro hf; exact absurd hf (by simp [findVersion])
  | cons c cs ih =>
    intro hf
    cases hm : matchVersionAt (c :: cs) with
    | some pr =>
      obtain ⟨cap, rest⟩ := pr
      simp only [replaceVersion, hm]
      exact findVersion_head_some _ _ _ (by simp [pyRepl])
        (matchVersionAt_pyRepl v hv1 hv2 rest)
    | none =>
      have h' : (findVersion cs).isSome = true := by
        simpa [findVersion, hm] using hf
      have ih' := ih h'
      obtain ⟨a, mid, rest, heq, hshape, hrep⟩ :=
        replaceVersion_decomp cs h' (pyRepl v)
      have hVR : VShape (pyRepl v) := VShape_pyRepl v hv1 hv2
      have hm' : matchVersionAt ((c :: a) ++ (mid ++ rest)) = none := by
        rw [show (c :: a) ++ (mid ++ rest) = c :: cs from by rw [heq]; simp]
        exact hm
      have hcongr :=
        matchVersionAt_shape_congr (c :: a) mid (pyRepl v) rest hshape hVR
      rw [hm'] at hcongr
      have hnone2 : matchVersionAt (c :: (a ++ (pyRepl v ++ rest))) = none := by
        rw [show c :: (a ++ (pyRepl v ++ rest)) =
          (c :: a) ++ (pyRepl v ++ rest) from by simp]
        cases hx : matchVersionAt ((c :: a) ++ (pyRepl v ++ rest)) with
        | none => rfl
        | some p =>
          rw [hx] at hcongr
          exact absurd hcongr.symm (by simp)
      simp only [replaceVersion, hm]
      rw [show c :: replaceVersion (pyRepl v) cs =
        c :: (a ++ (pyRepl v ++ rest)) from by rw [hrep]]
      simp only [findVersion, hnone2]
      rw [← hrep]
      exact ih'

theorem splitDot_mem : ∀ cs : List Char, ∀ c ∈ cs,
    c = '.' ∨ ∃ g ∈ splitDot cs, c ∈ g := by
  intro cs
  induction cs with
  | nil => intro c hc; exact absurd hc (List.not_mem_nil c)
  | cons x rest ih =>
    intro c hc
    by_cases hx : x = '.'
    · rcases List.mem_cons.mp hc with rfl | hc
      · exact Or.inl hx
      · rcases ih c hc with h | ⟨g, hg, hcg⟩
        · exact Or.inl h
        · refine Or.inr ⟨g, ?_, hcg⟩
          simp [splitDot, hx, hg]
    · obtain ⟨g0, gs, hsp⟩ :=
        List.exists_cons_of_ne_nil (splitDot_ne_nil rest)
      have hres : splitDot (x :: rest) = (x :: g0) :: gs := by
        simp [splitDot, hx, hsp]
      rcases List.mem_cons.mp hc with rfl | hc
      · exact Or.inr ⟨c :: g0, by simp [hres], by simp⟩
      · rcases ih c hc with h | ⟨g, hg, hcg⟩
        · exact Or.inl h
        · rw [hsp] at hg
          rcases List.mem_cons.mp hg with rfl | hg
          · exact Or.inr ⟨x :: g, by simp [hres], by simp [hcg]⟩
          · exact Or.inr ⟨g, by simp [hres, hg], hcg⟩

theorem digit_notQuote (c : Char) (h : c.isDigit = true) : notQuote c = true := by
  unfold notQuote isQuote
  simp only [Bool.not_eq_true', Bool.or_eq_false_iff, beq_eq_false_iff_ne, ne_eq]
  constructor <;> intro hc <;> subst hc <;> exact absurd h (by decide)

theorem canonical_data_props (v : String)
    (h : isCanonicalVersionString v = true) :
    v.data ≠ [] ∧ ∀ c ∈ v.data, notQuote c = true := by
  unfold isCanonicalVersionString at h
  split at h
  case _ a b c heq =>
    simp only [Bool.and_eq_true] at h
    obtain ⟨⟨⟨⟨⟨ha1, ha2⟩, hb1⟩, hb2⟩, hc1⟩, hc2⟩ := h
    constructor
    · intro hd
      rw [hd] at heq
      simp [splitDot] at heq
    · intro ch hch
      rcases splitDot_mem v.data ch hch with rfl | ⟨g, hg, hchg⟩
      · decide
      · rw [heq] at hg
        have hdig : ch.isDigit = true := by
          rcases List.mem_cons.mp hg with rfl | hg
          · exact List.all_eq_true.mp ha2 ch hchg
          rcases List.mem_cons.mp hg with rfl | hg
          · exact List.all_eq_true.mp hb2 ch hchg
          rcases List.mem_cons.mp hg with rfl | hg
          · exact List.all_eq_true.mp hc2 ch hchg
          · exact absurd hg (List.not_mem_nil g)
        exact digit_notQuote ch hdig
  case _ =>
    exact absurd h (by simp)

/-- Content-level round trip: writing a canonical version into a content that
contains a version constant and reading it back yields exactly that version
string. -/
theorem readPythonVersionContent_roundtrip (content v : String)
    (hv : isCanonicalVersionString v = true)
    (hread : (readPythonVersionContent content).isSome = true) :
    readPythonVersionContent (updatePythonVersionContent content v) = some v := by
  obtain ⟨h1, h2⟩ := canonical_data_props v hv
  have hff : (findVersion content.data).isSome = true := by
    unfold readPythonVersionContent at hread
    cases hfd : findVersion content.data with
    | none => rw [hfd] at hread; exact absurd hread (by simp)
    | some p => rfl
  unfold readPythonVersionContent updatePythonVersionContent
  rw [show (⟨replaceVersion (pyRepl v) content.data⟩ : String).data =
    replaceVersion (pyRepl v) content.data from rfl]
  rw [findVersion_replaceVersion v h1 h2 content.data hff]
  rfl

/-- C7: writing a canonical version string into a source constant with
`updatePythonVersion` and reading it back with `readPythonVersion` yields
exactly that string — no extra whitespace or quote variants are introduced. -/
theorem version_write_read_roundtrip (fs fs' : FileSystem) (path v old : String)
    (hv : isCanonicalVersionString v = true)
    (hread : readPythonVersionFs fs path = some old)
    (hupd : updatePythonVersionFs fs path v = some fs') :
    readPythonVersionFs fs' path = some v := by
  unfold readPythonVersionFs at hread ⊢
  unfold updatePythonVersionFs at hupd
  cases hrf : readFs fs path with
  | none => rw [hrf] at hread; exact absurd hread (by simp)
  | some content =>
    simp only [hrf] at hread hupd
    simp only [Option.some.injEq] at hupd
    rw [← hupd, readFs_writeFs_same]
    apply readPythonVersionContent_roundtrip content v hv
    rw [hread]
    rfl

theorem version_write_read_roundtrip_witness :
    readPythonVersionFs
        [("f.py", "__version__ = \"1.4.0\"\n"),
         ("f.py", "__version__ = '0.9.9'\n")] "f.py" = some "1.4.0" :=
  version_write_read_roundtrip
    [("f.py", "__version__ = '0.9.9'\n")]
    [("f.py", "__version__ = \"1.4.0\"\n"),
     ("f.py", "__version__ = '0.9.9'\n")]
    "f.py" "1.4.0" "0.9.9" rfl rfl rfl

example : calculateNextVersion "1.2.3" "minor" = "1.3.0" := rfl
example : calculateNextVersion "1.2.3" "major" = "2.0.0" := rfl
example : calculateNextVersion "1.2.3" "patch" = "1.2.4" := rfl
example : calculateNextVersion "1.2.3" "rc" = "1.2.3" := rfl
example : calculateNextVersion "1.2.3-rc1" "patch" = "1.2.NaN" := rfl
example : analyzeCommits [⟨"feat(bot): x"⟩] = ⟨true, false⟩ := rfl
example : analyzeCommits [] = ⟨true, true⟩ := rfl
example : analyzeCommits [⟨"docs: readme"⟩] = ⟨true, true⟩ := rfl
example : analyzeCommits [⟨"Bot: fix retry"⟩] = ⟨true, false⟩ := rfl
example : readPythonVersionContent "__version__ = \"2.0.0\"\n" = some "2.0.0" := rfl
example : readPythonVersionContent "__version__ = '1.2.3-rc1'" = some "1.2.3-rc1" := rfl
example : readPythonVersionContent "x = 1\n" = none := rfl
example :
    updatePythonVersionContent "a\n__version__ = '0.9.9'\nb" "1.4.0" =
      "a\n__version__ = \"1.4.0\"\nb" := rfl
example :
    updatePyprojectVersionContent "name = \"x\"\nversion = \"1.0.0\"\n" "2.0.0" =
      "name = \"x\"\nversion = \"2.0.0\"\n" := rfl
example :
    prepare ⟨"bot.py", "api.py", some "pyproject.toml"⟩ [⟨"feat(bot): x"⟩] "minor" true
      [("bot.py", "__version__ = \"2.0.0\"\n"), ("api.py", "__version__ = \"1.5.2\"\n"),
       ("pyproject.toml", "version = \"2.0.0\"\n")] =
    .ok ({ botVersion := "2.1.0", apiVersion := "1.5.2", version := "2.1.0",
           syncWarned := false },
      [("pyproject.toml", "version = \"2.1.0\"\n"),
       ("bot.py", "__version__ = \"2.1.0\"\n"),
       ("bot.py", "__version__ = \"2.0.0\"\n"), ("api.py", "__version__ = \"1.5.2\"\n"),
       ("pyproject.toml", "version = \"2.0.0\"\n")]) := rfl
